import Mathlib

/-!
Verification of the `checkout` worktree tool (src/main.rs) against its
natural-language specification.  The Rust source is shallowly embedded:
pure string functions become Lean functions on `String` / `List Char`,
external effects (git commands, the filesystem, stdin, the terminal, the
trust-list JSON file) become explicit oracles, traces, and state values.
Character classes (`is_alphanumeric`, whitespace, `\d`) are modelled at
ASCII granularity; all inputs exercised by the claims are ASCII.
-/

namespace Checkout

/-! ### Reference parser (`extract_pr_number`, src/main.rs:853-872) -/

/-- Numeric value of a digit list, most significant first (the accumulator
fold used by integer parsing). -/
def digitsVal (l : List Char) : Nat :=
  l.foldl (fun a c => a * 10 + (c.toNat - 48)) 0

/-- Model of Rust `str::parse::<u64>`: an optional leading `+`, then one or
more ASCII digits; the value must fit in 64 bits, otherwise the parse
fails. -/
def parseU64? (s : List Char) : Option Nat :=
  let s2 := match s with
    | [] => []
    | c :: rest => if c = '+' then rest else c :: rest
  if s2 = [] then none
  else if s2.all Char.isDigit then
    let v := digitsVal s2
    if v < 2 ^ 64 then some v else none
  else none

/-- Attempt to match the regex `/pull/(\d+)` anchored at the start of `s`:
the literal `/pull/` followed by at least one digit; the capture is the
maximal digit run. -/
def matchPullAt (s : List Char) : Option (List Char) :=
  match s.dropPrefix? "/pull/".data with
  | some rest =>
    match rest with
    | d :: _ => if d.isDigit then some (rest.takeWhile Char.isDigit) else none
    | [] => none
  | none => none

/-- Leftmost match of `/pull/(\d+)` in `l` (the semantics of
`Regex::captures`), returning the captured digit run. -/
def findPullNumber : List Char → Option (List Char)
  | [] => none
  | c :: rest =>
    match matchPullAt (c :: rest) with
    | some ds => some ds
    | none => findPullNumber rest

/-- Model of `extract_pr_number` (src/main.rs:853-872): try a plain `u64`
parse; otherwise search for `/pull/(\d+)` and parse the capture; otherwise
fail with a message naming the input. -/
def extract_pr_number (input : String) : Except String Nat :=
  match parseU64? input.data with
  | some n => Except.ok n
  | none =>
    match findPullNumber input.data with
    | some ds =>
      match parseU64? ds with
      | some n => Except.ok n
      | none => Except.error "Failed to parse PR number"
    | none =>
      Except.error ("Could not parse PR number from '" ++ input ++
        "'. Expected a number or GitHub PR URL.")

/-! ### Slug generator (`create_slug`, src/main.rs:890-913) -/

/-- Model of `title.find(": ")` followed by `&title[idx + 2..]`: the suffix
of `l` after the first occurrence of the two-character separator `": "`,
or `none` when the separator does not occur. -/
def afterColonSpace? : List Char → Option (List Char)
  | [] => none
  | c :: rest =>
    if c = ':' then
      match rest with
      | d :: rest2 => if d = ' ' then some rest2 else afterColonSpace? rest
      | [] => none
    else afterColonSpace? rest

/-- Model of the regex `-+` replaced by `-`: collapse each maximal run of
hyphens to a single hyphen. -/
def collapseHyphens : List Char → List Char
  | [] => []
  | [c] => [c]
  | c :: d :: rest =>
    if c = '-' ∧ d = '-' then collapseHyphens (d :: rest)
    else c :: collapseHyphens (d :: rest)

/-- Model of `str::trim_matches('-')`: drop all leading and trailing
hyphens. -/
def trimHyphens (l : List Char) : List Char :=
  (((l.dropWhile (fun c => c = '-')).reverse.dropWhile (fun c => c = '-')).reverse)

/-- Split a character list at every occurrence of `sep`, keeping empty
pieces (so the result is always nonempty) — the semantics of
`str::split(sep)`. -/
def splitOnChar (sep : Char) : List Char → List (List Char)
  | [] => [[]]
  | c :: rest =>
    if c = sep then [] :: splitOnChar sep rest
    else
      match splitOnChar sep rest with
      | s :: ss => (c :: s) :: ss
      | [] => [[c]]

/-- Core of `create_slug` on character lists: strip a leading
`category: ` part, lower-case, replace non-alphanumerics with hyphens,
collapse hyphen runs, trim outer hyphens, then keep the first four
nonempty hyphen-separated segments. -/
def createSlugCore (title : List Char) : List Char :=
  let stripped := (afterColonSpace? title).getD title
  let lowered := stripped.map Char.toLower
  let slug := lowered.map (fun c => if c.isAlphanum then c else '-')
  let cleaned := collapseHyphens slug
  let trimmed := trimHyphens cleaned
  List.intercalate ['-']
    (((splitOnChar '-' trimmed).filter (fun s => !s.isEmpty)).take 4)

/-- Model of `create_slug` (src/main.rs:890-913). -/
def create_slug (title : String) : String :=
  ⟨createSlugCore title.data⟩

example : create_slug "Add X" = "add-x" := by decide
example : create_slug "a: b: c" = "b-c" := by decide
example : create_slug "" = "" := by decide
example : create_slug "multiplayer: Fix the thing that broke" = "fix-the-thing-that" := by decide
example : extract_pr_number "123" = Except.ok 123 := rfl
example : extract_pr_number "https://github.com/figma/figma/pull/456" = Except.ok 456 := rfl

/-! ### Conflict resolver: worktree update on UseExisting
(`update_worktree` src/main.rs:1012-1043, `run_pr` src/main.rs:310-323,
`run_branch` src/main.rs:410-421)

External commands are modelled by their argv lists; an environment oracle
decides which invocations succeed.  Each embedded function returns the
trace of commands it issued together with its result. -/

/-- Success oracle for external commands, keyed by the full argv. -/
def GitEnv : Type := List String → Bool

/-- The argv of the fetch issued by `update_worktree`. -/
def fetchCmd (worktree_path branch : String) : List String :=
  ["git", "-C", worktree_path, "fetch", "origin", branch]

/-- The argv of the hard reset issued by `update_worktree`. -/
def resetCmd (worktree_path branch : String) : List String :=
  ["git", "-C", worktree_path, "reset", "--hard", "origin/" ++ branch]

/-- Model of `update_worktree` (src/main.rs:1012-1043): fetch the branch in
the worktree, then `reset --hard` to `origin/<branch>`; each step fails
with its own message when the command fails. -/
def update_worktree (env : GitEnv) (worktree_path branch : String) :
    List (List String) × Except String Unit :=
  let c1 := fetchCmd worktree_path branch
  if env c1 = false then ([c1], Except.error "git fetch failed")
  else
    let c2 := resetCmd worktree_path branch
    if env c2 = false then ([c1, c2], Except.error "git reset failed")
    else ([c1, c2], Except.ok ())

/-- The `UseExisting` arm of `run_pr`'s existing-worktree match
(src/main.rs:311-317): run `update_worktree` with the PR's head branch and
return the existing path on success. -/
def run_pr_use_existing (env : GitEnv) (existing_path head_ref : String) :
    List (List String) × Except String String :=
  let r := update_worktree env existing_path head_ref
  (r.1, r.2.map (fun _ => existing_path))

/-- The `UseExisting` arm of `run_branch`'s existing-worktree match
(src/main.rs:413-415): return the existing path directly; no command of
any kind is issued. -/
def run_branch_use_existing (existing_path : String) :
    List (List String) × Except String String :=
  ([], Except.ok existing_path)

/-! ### Worktree path collision handling
(`find_next_worktree_path`, src/main.rs:839-851) -/

/-- A candidate worktree path: `<dir>/<base>-<suffix>` as built by
`worktree_dir.join(format!("{}-{}", base_name, suffix))`. -/
def candPath (dir base : String) (suffix : Nat) : String :=
  dir ++ "/" ++ base ++ "-" ++ toString suffix

/-- Loop body of `find_next_worktree_path`.  The source iterates `suffix`
from 2 and errors as soon as `suffix > 100`; here the second argument
counts the candidates that may still be tried (`101 - suffix`), which is
the same bound expressed structurally.  The tried candidates are returned
as a trace. -/
def findNextGo (ex : String → Bool) (dir base : String) :
    Nat → Nat → List String × Except String String
  | _, 0 => ([], Except.error "Too many worktrees")
  | suffix, remaining + 1 =>
    let candidate := candPath dir base suffix
    if ex candidate then
      let r := findNextGo ex dir base (suffix + 1) remaining
      (candidate :: r.1, r.2)
    else ([candidate], Except.ok candidate)

/-- Model of `find_next_worktree_path` (src/main.rs:839-851): try suffixes
2, 3, … and return the first candidate that does not exist on disk
(oracle `ex`); give up once the suffix would exceed 100. -/
def find_next_worktree_path (ex : String → Bool) (dir base : String) :
    List String × Except String String :=
  findNextGo ex dir base 2 99

/-! ### Conflict resolver: interactive prompt
(`prompt_existing_worktree_action`, src/main.rs:787-837)

Stdin is modelled as the list of lines remaining to be read; an exhausted
input (on which the real loop would block re-prompting forever) yields
`none`. -/

inductive ExistingWorktreeAction : Type
  | UseExisting
  | CreateNew
deriving DecidableEq

/-- Model of `str::trim` (ASCII whitespace granularity). -/
def trimChars (l : List Char) : List Char :=
  ((l.dropWhile Char.isWhitespace).reverse.dropWhile Char.isWhitespace).reverse

/-- Trimmed form of an input line, as `input.trim()` produces. -/
def strTrim (s : String) : String :=
  ⟨trimChars s.data⟩

/-- Lower-cased form of a string, as `str::to_lowercase` produces (ASCII
granularity). -/
def strToLower (s : String) : String :=
  ⟨s.data.map Char.toLower⟩

/-- Whether a confirmation line is the affirmative token: the source
compares `confirm.trim().to_lowercase()` with `"y"`. -/
def isAffirmative (s : String) : Bool :=
  strToLower (strTrim s) = "y"

/-- Model of `prompt_existing_worktree_action` (src/main.rs:787-837):
`"1"` selects `UseExisting` (after a `y` confirmation when the worktree
has uncommitted changes; a declined confirmation returns to the menu),
`"2"` selects `CreateNew`, anything else re-prompts. -/
def prompt_existing_worktree_action (has_changes : Bool) :
    List String → Option ExistingWorktreeAction
  | [] => none
  | line :: rest =>
    if strTrim line = "1" then
      if has_changes then
        match rest with
        | [] => none
        | confirm :: rest2 =>
          if isAffirmative confirm then some ExistingWorktreeAction.UseExisting
          else prompt_existing_worktree_action has_changes rest2
      else some ExistingWorktreeAction.UseExisting
    else if strTrim line = "2" then some ExistingWorktreeAction.CreateNew
    else prompt_existing_worktree_action has_changes rest

example :
    prompt_existing_worktree_action true ["1", "n", "2"] =
      some ExistingWorktreeAction.CreateNew := by decide
example :
    prompt_existing_worktree_action true ["huh", "1", " Y "] =
      some ExistingWorktreeAction.UseExisting := by decide
example :
    (find_next_worktree_path (fun p => p = "d/b-2") "d" "b").2 =
      Except.ok "d/b-3" := rfl
example :
    (find_next_worktree_path (fun _ => true) "d" "b").1.length = 99 := by decide

/-! ### Terminal decorator: color assignment
(`COLOR_PALETTE` src/main.rs:15-28, `get_used_colors` src/main.rs:209-225,
`pick_available_color` src/main.rs:227-242)

The per-worktree color files under the state directory are modelled as an
association list from worktree directory name to stored color. -/

/-- The fixed palette (src/main.rs:15-28). -/
def COLOR_PALETTE : List String :=
  ["1e2233", "1e2828", "2d1f2d", "1f2d2d", "2b2433", "33261f",
   "1f2b33", "2d2626", "262d26", "332b1f", "261f2d", "1f332b"]

/-- State of the color directory: one (file name, stored color) entry per
persisted assignment file. -/
def ColorState : Type := List (String × String)

/-- Model of `PathBuf::file_name` at the granularity used here: the last
nonempty `/`-separated component of the path (the source maps a missing
file name to `"unknown"`). -/
def fileNameOf (path : String) : String :=
  match ((splitOnChar '/' path.data).filter (fun s => !s.isEmpty)).getLast? with
  | some c => ⟨c⟩
  | none => "unknown"

/-- Model of `get_worktree_color`: read the color file named after the
worktree directory, if present. -/
def get_worktree_color (st : ColorState) (path : String) : Option String :=
  (st.find? (fun e => e.1 = fileNameOf path)).map (fun e => e.2)

/-- Model of `save_worktree_color`: write (create or overwrite) the color
file named after the worktree directory. -/
def save_worktree_color (st : ColorState) (path color : String) : ColorState :=
  (fileNameOf path, color) :: st.filter (fun e => e.1 ≠ fileNameOf path)

/-- Model of `get_used_colors` (src/main.rs:209-225): the colors stored in
all assignment files. -/
def get_used_colors (st : ColorState) : List String :=
  st.map (fun e => e.2)

/-- UTF-8 encoding of one scalar value, byte values as naturals. -/
def utf8Bytes (c : Char) : List Nat :=
  let n := c.toNat
  if n < 0x80 then [n]
  else if n < 0x800 then [0xC0 + n / 0x40, 0x80 + n % 0x40]
  else if n < 0x10000 then
    [0xE0 + n / 0x1000, 0x80 + (n / 0x40) % 0x40, 0x80 + n % 0x40]
  else
    [0xF0 + n / 0x40000, 0x80 + (n / 0x1000) % 0x40,
     0x80 + (n / 0x40) % 0x40, 0x80 + n % 0x40]

/-- Model of the fallback hash (src/main.rs:240): fold `wrapping_add` of
the path's UTF-8 bytes over a 64-bit accumulator. -/
def byteSumHash (path : String) : Nat :=
  (path.data.flatMap utf8Bytes).foldl (fun a b => (a + b) % 2 ^ 64) 0

/-- Model of `pick_available_color` (src/main.rs:227-242): keep a persisted
assignment if one exists; otherwise the first palette color not stored in
any assignment file; once the palette is exhausted, index it by the byte
sum of the path modulo the palette size. -/
def pick_available_color (st : ColorState) (path : String) : String :=
  match get_worktree_color st path with
  | some existing => existing
  | none =>
    let used := get_used_colors st
    match COLOR_PALETTE.find? (fun c => !used.contains c) with
    | some c => c
    | none => COLOR_PALETTE.getD (byteSumHash path % COLOR_PALETTE.length) ""

/-- One pick-then-save round per worktree path, in order (the sequence of
`pick_available_color`/`save_worktree_color` calls in `run_pr` and
`run_branch`), returning the picked colors. -/
def assignColors (st : ColorState) : List String → List String
  | [] => []
  | p :: ps =>
    let c := pick_available_color st p
    c :: assignColors (save_worktree_color st p c) ps

/-! ### Terminal decorator: setup/teardown protocol
(`ItermGuard` src/main.rs:148-167, `setup_ctrlc_handler` src/main.rs:169-178)

An execution is a sequence of whole events: guard construction
(`ItermGuard::new`), guard drop, and the Ctrl-C handler.  The handler ends
the process (`exit(130)`), so once it has run no later event has any
effect.  `resets` counts emissions of the reset escape sequences. -/

inductive TermEvent : Type
  | setup
  | drop
  | interrupt
deriving DecidableEq

structure TermState where
  modified : Bool
  resets : Nat
  setups : Nat
  halted : Bool
deriving DecidableEq

/-- Transition of one event, translated from the source: `ItermGuard::new`
stores `true` into `ITERM_MODIFIED`; `Drop::drop` emits the resets and
stores `false` only when the flag is set; the Ctrl-C handler emits the
resets when the flag is set, does not clear it, and exits the process. -/
def termStep (s : TermState) (e : TermEvent) : TermState :=
  if s.halted then s
  else
    match e with
    | TermEvent.setup => { s with modified := true, setups := s.setups + 1 }
    | TermEvent.drop =>
      if s.modified then { s with modified := false, resets := s.resets + 1 }
      else s
    | TermEvent.interrupt =>
      if s.modified then { s with resets := s.resets + 1, halted := true }
      else { s with halted := true }

/-- Initial state: `ITERM_MODIFIED` starts `false`. -/
def termInit : TermState :=
  { modified := false, resets := 0, setups := 0, halted := false }

/-- Run an event sequence from the initial state. -/
def runTerm (t : List TermEvent) : TermState :=
  t.foldl termStep termInit

example : (runTerm [TermEvent.setup, TermEvent.interrupt]).modified = true := by decide
example : (runTerm [TermEvent.setup, TermEvent.drop]).resets = 1 := by decide

/-! ### Trust-list editing (`add_claude_trust`, src/main.rs:1122-1199)

`serde_json::Value` is embedded as an inductive JSON type (numbers as
integers, which covers every literal the function manipulates).  Rust's
string indexing `value[key] = v` inserts into objects, auto-vivifies
`Null` into an object, and panics on every other variant; a panic is
modelled as `none`. -/

inductive Json : Type
  | null : Json
  | bool : Bool → Json
  | num : Int → Json
  | str : String → Json
  | arr : List Json → Json
  | obj : List (String × Json) → Json
deriving BEq

/-- Lookup in an object's field list (first match). -/
def lookupField : List (String × Json) → String → Option Json
  | [], _ => none
  | (k', v) :: rest, k => if k' = k then some v else lookupField rest k

/-- Insert-or-overwrite in an object's field list, keeping the position of
an existing key (lookup-equivalent to the `serde_json` map insert). -/
def insertField : List (String × Json) → String → Json → List (String × Json)
  | [], k, v => [(k, v)]
  | (k', v') :: rest, k, v =>
    if k' = k then (k, v) :: rest else (k', v') :: insertField rest k v

/-- Model of `Value::get(key)`: object lookup, `none` on non-objects. -/
def Json.get? : Json → String → Option Json
  | Json.obj fs, k => lookupField fs k
  | _, _ => none

/-- Model of `value[key] = v` via `serde_json`'s `IndexMut<&str>`: insert
into an object, turn `Null` into a fresh object, panic (`none`) on every
other variant. -/
def Json.setKey : Json → String → Json → Option Json
  | Json.obj fs, k, v => some (Json.obj (insertField fs k v))
  | Json.null, k, v => some (Json.obj [(k, v)])
  | _, _, _ => none

/-- Model of `value[k1][k2] = v`: index-assignment through two levels,
with the same vivify/panic semantics at each level. -/
def Json.setKey2 (data : Json) (k1 k2 : String) (v : Json) : Option Json :=
  let inner? : Option Json :=
    match data with
    | Json.obj fs => some ((lookupField fs k1).getD Json.null)
    | Json.null => some Json.null
    | _ => none
  match inner? with
  | none => none
  | some inner =>
    match inner.setKey k2 v with
    | none => none
    | some inner2 => data.setKey k1 inner2

/-- Whether a value is an object or `Null` — the variants on which string
index-assignment does not panic. -/
def Json.isObjOrNull : Json → Bool
  | Json.obj _ => true
  | Json.null => true
  | _ => false

/-- Model of `as_object_mut().map(|obj| { obj.remove(..); .. })`: drop the
listed keys from an object, leave any other variant unchanged. -/
def removeFields : Json → List String → Json
  | Json.obj fs, ks => Json.obj (fs.filter (fun e => !ks.contains e.1))
  | j, _ => j

/-- The default project template (src/main.rs:1149-1165). -/
def defaultProjectTemplate : Json :=
  Json.obj
    [("allowedTools", Json.arr []),
     ("mcpContextUris", Json.arr []),
     ("mcpServers", Json.obj []),
     ("enabledMcpjsonServers", Json.arr []),
     ("disabledMcpjsonServers", Json.arr []),
     ("projectOnboardingSeenCount", Json.num 0),
     ("hasClaudeMdExternalIncludesApproved", Json.bool false),
     ("hasClaudeMdExternalIncludesWarningShown", Json.bool false),
     ("reactVulnerabilityCache",
      Json.obj
        [("detected", Json.bool false),
         ("package", Json.null),
         ("packageName", Json.null),
         ("version", Json.null),
         ("packageManager", Json.null)])]

/-- The session-specific keys removed from the cloned entry
(src/main.rs:1173-1188). -/
def sessionFields : List String :=
  ["lastAPIDuration", "lastAPIDurationWithoutRetries", "lastCost",
   "lastDuration", "lastLinesAdded", "lastLinesRemoved", "lastModelUsage",
   "lastSessionId", "lastToolDuration",
   "lastTotalCacheCreationInputTokens", "lastTotalCacheReadInputTokens",
   "lastTotalInputTokens", "lastTotalOutputTokens",
   "lastTotalWebSearchRequests", "exampleFiles", "exampleFilesGeneratedAt"]

/-- Model of `add_claude_trust` (src/main.rs:1122-1199).  `initial` is the
parsed trust-list document, `none` when the file does not exist (the
source then starts from `{}`).  The result is `none` exactly when the
source would panic on a string-index into a non-object value. -/
def add_claude_trust (initial : Option Json) (worktree_path repo_root : String) :
    Option Json :=
  let data := initial.getD (Json.obj [])
  let step1 : Option Json :=
    if (data.get? "projects").isNone then data.setKey "projects" (Json.obj [])
    else some data
  match step1 with
  | none => none
  | some data1 =>
    let base_settings :=
      ((data1.get? "projects").bind (fun p => p.get? repo_root)).getD
        defaultProjectTemplate
    match base_settings.setKey "hasTrustDialogAccepted" (Json.bool true) with
    | none => none
    | some withTrust =>
      let new_project := removeFields withTrust sessionFields
      data1.setKey2 "projects" worktree_path new_project

/-- Lookup of one project entry in a document, through the `projects`
member. -/
def projLookup (doc : Json) (key : String) : Option Json :=
  (doc.get? "projects").bind (fun p => p.get? key)

/-- The entry `add_claude_trust` stores for the new worktree: the main
repo's entry (or the default template) with the trust flag forced and the
session fields removed. -/
def expectedTrustEntry (initial : Option Json) (repo_root : String) : Json :=
  let data := initial.getD (Json.obj [])
  let base :=
    ((data.get? "projects").bind (fun p => p.get? repo_root)).getD
      defaultProjectTemplate
  removeFields
    ((base.setKey "hasTrustDialogAccepted" (Json.bool true)).getD (Json.obj []))
    sessionFields

/-! ### Worktree enumeration (`get_all_worktrees` src/main.rs:468-505,
`run_clean` src/main.rs:564-610)

The porcelain listing is a list of output lines; the per-worktree
`git status --porcelain` query is an oracle returning `Except` like
`has_uncommitted_changes`. -/

structure WorktreeInfo where
  path : String
  branch : String
  has_changes : Bool
deriving DecidableEq

/-- Strip a literal string from the front of another. -/
def stripPrefixS (p s : String) : Option String :=
  if p.data.isPrefixOf s.data then some ⟨s.data.drop p.data.length⟩ else none

/-- Model of `Result::unwrap_or`. -/
def unwrapOr (r : Except String Bool) (d : Bool) : Bool :=
  match r with
  | Except.ok b => b
  | Except.error _ => d

/-- The record-grouping loop of `get_all_worktrees` (src/main.rs:479-499):
`worktree ` and `branch refs/heads/` lines fill the current record, a
blank line flushes it (skipping the main repo), and the dirty-status query
result is `unwrap_or(false)`. -/
def parseWorktrees (repo_root : String) (statusOf : String → Except String Bool) :
    List String → Option String → Option String → List WorktreeInfo
  | [], _, _ => []
  | line :: rest, curPath, curBranch =>
    if (stripPrefixS "worktree " line).isSome then
      parseWorktrees repo_root statusOf rest (stripPrefixS "worktree " line) curBranch
    else if (stripPrefixS "branch refs/heads/" line).isSome then
      parseWorktrees repo_root statusOf rest curPath (stripPrefixS "branch refs/heads/" line)
    else if line = "" then
      match curPath with
      | some path =>
        if path ≠ repo_root then
          { path := path,
            branch := curBranch.getD "(detached)",
            has_changes := unwrapOr (statusOf path) false } ::
            parseWorktrees repo_root statusOf rest none none
        else parseWorktrees repo_root statusOf rest none none
      | none => parseWorktrees repo_root statusOf rest none none
    else parseWorktrees repo_root statusOf rest curPath curBranch

/-- Insertion step of the by-path sort. -/
def insertByPath (w : WorktreeInfo) : List WorktreeInfo → List WorktreeInfo
  | [] => [w]
  | x :: xs => if w.path ≤ x.path then w :: x :: xs else x :: insertByPath w xs

/-- Stable by-path insertion sort, modelling `sort_by(|a, b| a.path.cmp(&b.path))`. -/
def sortByPath : List WorktreeInfo → List WorktreeInfo
  | [] => []
  | x :: xs => insertByPath x (sortByPath xs)

/-- Model of `get_all_worktrees` (src/main.rs:468-505) given the porcelain
output lines and the status oracle. -/
def get_all_worktrees (repo_root : String) (statusOf : String → Except String Bool)
    (lines : List String) : List WorktreeInfo :=
  sortByPath (parseWorktrees repo_root statusOf lines none none)

/-- The removal candidates computed by `run_clean` (src/main.rs:573): all
enumerated worktrees without uncommitted changes. -/
def run_clean_candidates (repo_root : String) (statusOf : String → Except String Bool)
    (lines : List String) : List WorktreeInfo :=
  (get_all_worktrees repo_root statusOf lines).filter (fun w => !w.has_changes)

example :
    add_claude_trust (some (Json.arr [])) "/w" "/r" = none := rfl

example :
    (Json.null).setKey "a" (Json.bool true) = some (Json.obj [("a", Json.bool true)]) := rfl
example :
    (parseWorktrees "/repo"
      (fun _ => Except.error "boom")
      ["worktree /repo", "branch refs/heads/master", "",
       "worktree /wt/pr-1-x", "branch refs/heads/feat", ""] none none) =
    [{ path := "/wt/pr-1-x", branch := "feat", has_changes := false }] := by decide

/-! ## Theorems -/

/-! ### C2: the worked slug examples -/

/-- C2 is falsified by its first example: the slug keeps only the first
four segments, so the title about fixing the thing that broke maps to
`"fix-the-thing-that"`, not to the five-segment string the claim
gives. -/
theorem create_slug_first_example_cex :
    create_slug "multiplayer: Fix the thing that broke" ≠ "fix-the-thing-that-broke" := by
  decide

/-- C2 (amended): the slug of the first example is `"fix-the-thing-that"`
(the first four segments); the remaining three examples hold as
claimed. -/
theorem create_slug_examples_amended :
    create_slug "multiplayer: Fix the thing that broke" = "fix-the-thing-that" ∧
    create_slug "Add X" = "add-x" ∧
    create_slug "a: b: c" = "b-c" ∧
    create_slug "" = "" := by
  exact ⟨by decide, by decide, by decide, by decide⟩

/-! ### C3: the UseExisting update -/

/-- C3 is falsified on the `branch` subcommand: its UseExisting arm issues
no git command at all — the trace is empty — and returns the existing path,
so no fetch or force-reset happens on that invocation path. -/
theorem branch_use_existing_no_update_cex :
    (run_branch_use_existing "/wt/branch-foo").1 = [] ∧
    (run_branch_use_existing "/wt/branch-foo").2 = Except.ok "/wt/branch-foo" :=
  ⟨rfl, rfl⟩

/-- C3 (amended): when the `pr` subcommand reaches UseExisting and both
git commands succeed, the program fetches the head branch and force-resets
the worktree to `origin/<branch>`, in that order, and returns the original
path unchanged; the `branch` subcommand's UseExisting arm instead returns
the path unchanged without issuing any command. -/
theorem use_existing_update_amended :
    (∀ (env : GitEnv) (p b : String),
      env (fetchCmd p b) = true → env (resetCmd p b) = true →
      run_pr_use_existing env p b =
        ([fetchCmd p b, resetCmd p b], Except.ok p)) ∧
    (∀ p : String, run_branch_use_existing p = ([], Except.ok p)) := by
  constructor
  · intro env p b h1 h2
    simp [run_pr_use_existing, update_worktree, h1, h2, Except.map]
  · intro p
    rfl

/-- Witness for the amended C3 theorem at a concrete environment in which
every command succeeds. -/
theorem use_existing_update_amended_witness :
    run_pr_use_existing (fun _ => true) "/wt/pr-42-x" "feature-x" =
      ([fetchCmd "/wt/pr-42-x" "feature-x", resetCmd "/wt/pr-42-x" "feature-x"],
        Except.ok "/wt/pr-42-x") :=
  use_existing_update_amended.1 (fun _ => true) "/wt/pr-42-x" "feature-x" rfl rfl

/-! ### C5: the conflict-resolution prompt -/

/-- C5: on any remaining input, a line trimming to `"1"` selects
UseExisting directly when the worktree is clean; with uncommitted changes
an affirmative confirmation commits to UseExisting while any other
confirmation returns to the outer menu; a line trimming to `"2"` selects
CreateNew; any other line re-prompts with the rest of the input unchanged;
and every value the prompt returns is one of the two actions, never an
error. -/
theorem prompt_existing_worktree_action_spec :
    ∀ (rest : List String),
      (∀ x : String, strTrim x = "1" →
        prompt_existing_worktree_action false (x :: rest) =
          some ExistingWorktreeAction.UseExisting) ∧
      (∀ (x c : String) (rest2 : List String), strTrim x = "1" →
        isAffirmative c = true →
        prompt_existing_worktree_action true (x :: c :: rest2) =
          some ExistingWorktreeAction.UseExisting) ∧
      (∀ (x c : String) (rest2 : List String), strTrim x = "1" →
        isAffirmative c = false →
        prompt_existing_worktree_action true (x :: c :: rest2) =
          prompt_existing_worktree_action true rest2) ∧
      (∀ (h : Bool) (x : String), strTrim x = "2" →
        prompt_existing_worktree_action h (x :: rest) =
          some ExistingWorktreeAction.CreateNew) ∧
      (∀ (h : Bool) (x : String), strTrim x ≠ "1" → strTrim x ≠ "2" →
        prompt_existing_worktree_action h (x :: rest) =
          prompt_existing_worktree_action h rest) ∧
      (∀ (h : Bool) (a : ExistingWorktreeAction),
        prompt_existing_worktree_action h rest = some a →
        a = ExistingWorktreeAction.UseExisting ∨
          a = ExistingWorktreeAction.CreateNew) := by
  intro rest
  refine ⟨?_, ?_, ?_, ?_, ?_, ?_⟩
  · intro x hx
    rw [prompt_existing_worktree_action.eq_def]
    simp [hx]
  · intro x c rest2 hx hc
    rw [prompt_existing_worktree_action.eq_def]
    simp [hx, hc]
  · intro x c rest2 hx hc
    rw [prompt_existing_worktree_action.eq_def]
    simp [hx, hc]
  · intro h x hx
    have hne : strTrim x ≠ "1" := by rw [hx]; decide
    rw [prompt_existing_worktree_action.eq_def]
    simp [hx, hne]
  · intro h x hx1 hx2
    rw [prompt_existing_worktree_action.eq_def]
    simp [hx1, hx2]
  · intro h a _
    cases a
    · exact Or.inl rfl
    · exact Or.inr rfl

/-- Witness for C5: a scripted session on a dirty worktree — an invalid
line, then `"1"` with a declined confirmation, then `"1"` with an
affirmative confirmation — ends in UseExisting, derived by chaining the
transition equations. -/
theorem prompt_existing_worktree_action_spec_witness :
    prompt_existing_worktree_action true ["x", "1", "n", "1", "Y"] =
      some ExistingWorktreeAction.UseExisting := by
  have h5 := (prompt_existing_worktree_action_spec ["1", "n", "1", "Y"]).2.2.2.2.1
    true "x" (by decide) (by decide)
  have h3 := (prompt_existing_worktree_action_spec []).2.2.1
    "1" "n" ["1", "Y"] (by decide) (by decide)
  have h2 := (prompt_existing_worktree_action_spec []).2.1
    "1" "Y" [] (by decide) (by decide)
  exact h5.trans (h3.trans h2)

/-! ### C4: the next-free-path search -/

/-- On a successful search, the accepted candidate does not exist
according to the oracle. -/
theorem findNextGo_ok_not_exists (ex : String → Bool) (dir base : String) :
    ∀ (r suffix : Nat) (tr : List String) (p : String),
      findNextGo ex dir base suffix r = (tr, Except.ok p) → ex p = false := by
  intro r
  induction r with
  | zero =>
    intro suffix tr p h
    simp [findNextGo] at h
  | succ n ih =>
    intro suffix tr p h
    by_cases hex : ex (candPath dir base suffix) = true
    · rcases hfe : findNextGo ex dir base (suffix + 1) n with ⟨tr2, r2⟩
      simp [findNextGo, hex, hfe] at h
      rcases h with ⟨h1, h2⟩
      subst h2
      exact ih (suffix + 1) tr2 p hfe
    · simp [findNextGo, hex] at h
      rcases h with ⟨h1, h2⟩
      rw [← h2]
      simpa using hex

/-- When every candidate in the window exists, the loop tries all of them
in increasing order then gives up. -/
theorem findNextGo_all_used (ex : String → Bool) (dir base : String) :
    ∀ (r s : Nat),
      (∀ j, s ≤ j → j < s + r → ex (candPath dir base j) = true) →
      findNextGo ex dir base s r =
        ((List.range' s r).map (candPath dir base),
          Except.error "Too many worktrees") := by
  intro r
  induction r with
  | zero => intro s _; simp [findNextGo]
  | succ n ih =>
    intro s h
    have hs : ex (candPath dir base s) = true := h s le_rfl (by omega)
    have hrec := ih (s + 1) (fun j h1 h2 => h j (by omega) (by omega))
    simp [findNextGo, hs, hrec, List.range'_succ]

/-- When `k` is the first free suffix inside the window, the loop tries
exactly the suffixes from `s` to `k` in increasing order and returns the
`k` candidate. -/
theorem findNextGo_found (ex : String → Bool) (dir base : String) :
    ∀ (r s k : Nat), s ≤ k → k < s + r →
      ex (candPath dir base k) = false →
      (∀ j, s ≤ j → j < k → ex (candPath dir base j) = true) →
      findNextGo ex dir base s r =
        ((List.range' s (k - s + 1)).map (candPath dir base),
          Except.ok (candPath dir base k)) := by
  intro r
  induction r with
  | zero => intro s k h1 h2; omega
  | succ n ih =>
    intro s k h1 h2 hk hall
    by_cases hks : k = s
    · subst hks
      simp [findNextGo, hk]
    · have hs : ex (candPath dir base s) = true := hall s le_rfl (by omega)
      have hrec := ih (s + 1) k (by omega) (by omega) hk
        (fun j hj1 hj2 => hall j (by omega) hj2)
      have harith : k - s + 1 = (k - (s + 1) + 1) + 1 := by omega
      simp [findNextGo, hs, hrec, harith, List.range'_succ]

/-- C4 is falsified in its attempt count: with every candidate occupied
the search fails after trying 99 candidates (suffixes 2 through 100), not
100. -/
theorem find_next_worktree_path_attempts_cex :
    (find_next_worktree_path (fun _ => true) "d" "b").1.length = 99 ∧
    (find_next_worktree_path (fun _ => true) "d" "b").2 =
      Except.error "Too many worktrees" :=
  ⟨by decide, rfl⟩

/-- C4 (amended): the search never returns a path the oracle reports as
existing; it tries suffixes in strictly increasing order from 2 and
returns the first free candidate; and when every suffix from 2 to 100 is
taken it fails with the resource-exhaustion error after those 99
attempts. -/
theorem find_next_worktree_path_amended :
    ∀ (ex : String → Bool) (dir base : String),
      (∀ (tr : List String) (p : String),
        find_next_worktree_path ex dir base = (tr, Except.ok p) → ex p = false) ∧
      (∀ k, 2 ≤ k → k ≤ 100 → ex (candPath dir base k) = false →
        (∀ j, 2 ≤ j → j < k → ex (candPath dir base j) = true) →
        find_next_worktree_path ex dir base =
          ((List.range' 2 (k - 1)).map (candPath dir base),
            Except.ok (candPath dir base k))) ∧
      ((∀ j, 2 ≤ j → j ≤ 100 → ex (candPath dir base j) = true) →
        find_next_worktree_path ex dir base =
          ((List.range' 2 99).map (candPath dir base),
            Except.error "Too many worktrees")) := by
  intro ex dir base
  refine ⟨?_, ?_, ?_⟩
  · intro tr p h
    exact findNextGo_ok_not_exists ex dir base 99 2 tr p h
  · intro k h2 h100 hk hall
    have h := findNextGo_found ex dir base 99 2 k h2 (by omega) hk hall
    have harith : k - 2 + 1 = k - 1 := by omega
    rw [harith] at h
    exact h
  · intro hall
    exact findNextGo_all_used ex dir base 99 2
      (fun j h1 h2 => hall j h1 (by omega))

/-- Witness for the amended C4 theorem: with only suffix 2 occupied, the
search tries suffixes 2 and 3 and returns the suffix-3 candidate. -/
theorem find_next_worktree_path_amended_witness :
    find_next_worktree_path (fun p => p = "d/b-2") "d" "b" =
      ((List.range' 2 2).map (candPath "d" "b"), Except.ok (candPath "d" "b" 3)) :=
  (find_next_worktree_path_amended (fun p => p = "d/b-2") "d" "b").2.1 3
    (by decide) (by decide) (by decide)
    (fun j h1 h2 => by
      have : j = 2 := by omega
      subst this
      decide)

/-! ### C8: the terminal decoration protocol -/

/-- One event preserves the reset/setup accounting invariant. -/
theorem termStep_inv (s : TermState) (e : TermEvent)
    (h1 : s.resets ≤ s.setups)
    (h2 : s.halted = false → s.modified = true → s.resets < s.setups) :
    (termStep s e).resets ≤ (termStep s e).setups ∧
      ((termStep s e).halted = false → (termStep s e).modified = true →
        (termStep s e).resets < (termStep s e).setups) := by
  cases hh : s.halted
  · have h2a := h2 hh
    cases e
    · refine ⟨?_, ?_⟩ <;> simp [termStep, hh] <;> intros <;> omega
    · cases hm : s.modified
      · refine ⟨?_, ?_⟩ <;> simp [termStep, hh, hm] <;> intros <;> omega
      · have h3 := h2a hm
        refine ⟨?_, ?_⟩ <;> simp [termStep, hh, hm] <;> intros <;> omega
    · cases hm : s.modified
      · refine ⟨?_, ?_⟩ <;> simp [termStep, hh, hm] <;> intros <;> omega
      · have h3 := h2a hm
        refine ⟨?_, ?_⟩ <;> simp [termStep, hh, hm] <;> intros <;> omega
  · refine ⟨?_, ?_⟩ <;> simp [termStep, hh] <;> intros <;> omega

/-- The accounting invariant holds along any run. -/
theorem runTerm_inv_aux :
    ∀ (t : List TermEvent) (s : TermState),
      s.resets ≤ s.setups →
      (s.halted = false → s.modified = true → s.resets < s.setups) →
      (t.foldl termStep s).resets ≤ (t.foldl termStep s).setups ∧
        ((t.foldl termStep s).halted = false →
          (t.foldl termStep s).modified = true →
          (t.foldl termStep s).resets < (t.foldl termStep s).setups) := by
  intro t
  induction t with
  | nil => intro s h1 h2; exact ⟨h1, h2⟩
  | cons e t ih =>
    intro s h1 h2
    have h := termStep_inv s e h1 h2
    exact ih (termStep s e) h.1 h.2

/-- One non-setup event after the flag is down (or after exit) emits no
reset and keeps the flag down or the process exited. -/
theorem runTerm_frozen_step (s : TermState) (e : TermEvent)
    (hq : s.modified = false ∨ s.halted = true) (hene : e ≠ TermEvent.setup) :
    (termStep s e).resets = s.resets ∧
      ((termStep s e).modified = false ∨ (termStep s e).halted = true) := by
  cases hh : s.halted
  · have hm : s.modified = false := by
      rcases hq with hm | hh2
      · exact hm
      · rw [hh] at hh2
        exact absurd hh2 (by simp)
    cases e
    · exact absurd rfl hene
    · refine ⟨?_, ?_⟩ <;> simp [termStep, hh, hm]
    · refine ⟨?_, ?_⟩ <;> simp [termStep, hh, hm]
  · refine ⟨?_, ?_⟩ <;> simp [termStep, hh]

/-- After the flag is down (or the process has exited), a setup-free
suffix of events emits no further resets. -/
theorem runTerm_frozen_aux :
    ∀ (t2 : List TermEvent) (s : TermState),
      (s.modified = false ∨ s.halted = true) →
      TermEvent.setup ∉ t2 →
      (t2.foldl termStep s).resets = s.resets ∧
        ((t2.foldl termStep s).modified = false ∨
          (t2.foldl termStep s).halted = true) := by
  intro t2
  induction t2 with
  | nil => intro s hq _; exact ⟨rfl, hq⟩
  | cons e t ih =>
    intro s hq hmem
    have hene : e ≠ TermEvent.setup := fun he => hmem (he ▸ List.mem_cons_self e t)
    have hmem2 : TermEvent.setup ∉ t := fun hm => hmem (List.mem_cons_of_mem e hm)
    have hstep := runTerm_frozen_step s e hq hene
    have hrest := ih (termStep s e) hstep.2 hmem2
    exact ⟨hrest.1.trans hstep.1, hrest.2⟩

/-- C8 is falsified in its description of interrupt teardown: after a
setup followed by the Ctrl-C handler, the reset sequences have been
emitted once but the modified flag is still set — the handler does not
clear it (it exits the process instead). -/
theorem iterm_interrupt_flag_cex :
    (runTerm [TermEvent.setup, TermEvent.interrupt]).resets = 1 ∧
    (runTerm [TermEvent.setup, TermEvent.interrupt]).modified = true := by
  decide

/-- C8 (amended): along every event sequence, resets never outnumber
setups; while the flag is up and the process alive, strictly fewer resets
than setups have happened, so the next teardown is covered by a setup;
once the flag is down, a setup-free continuation emits no further reset
(no double-reset, no reset-without-setup); a drop while the process is
alive leaves the flag down; and the interrupt handler always leaves the
process exited — but, contrary to the claim, it does not clear the
flag. -/
theorem iterm_guard_protocol_amended :
    ∀ (t t2 : List TermEvent),
      (runTerm t).resets ≤ (runTerm t).setups ∧
      ((runTerm t).halted = false → (runTerm t).modified = true →
        (runTerm t).resets < (runTerm t).setups) ∧
      ((runTerm t).modified = false → TermEvent.setup ∉ t2 →
        (runTerm (t ++ t2)).resets = (runTerm t).resets) ∧
      ((runTerm t).halted = false →
        (runTerm (t ++ [TermEvent.drop])).modified = false) ∧
      (runTerm (t ++ [TermEvent.interrupt])).halted = true := by
  intro t t2
  have hinv := runTerm_inv_aux t termInit (le_refl 0) (by intro _ h; simp [termInit] at h)
  refine ⟨hinv.1, hinv.2, ?_, ?_, ?_⟩
  · intro hm hmem
    have : runTerm (t ++ t2) = t2.foldl termStep (runTerm t) := by
      simp [runTerm, List.foldl_append]
    rw [this]
    exact (runTerm_frozen_aux t2 (runTerm t) (Or.inl hm) hmem).1
  · intro hh
    have : runTerm (t ++ [TermEvent.drop]) = termStep (runTerm t) TermEvent.drop := by
      simp [runTerm, List.foldl_append]
    rw [this]
    cases hm : (runTerm t).modified
    · simp [termStep, hh, hm]
    · simp [termStep, hh, hm]
  · have : runTerm (t ++ [TermEvent.interrupt]) =
        termStep (runTerm t) TermEvent.interrupt := by
      simp [runTerm, List.foldl_append]
    rw [this]
    cases hh : (runTerm t).halted
    · cases hm : (runTerm t).modified
      · simp [termStep, hh, hm]
      · simp [termStep, hh, hm]
    · simp [termStep, hh]

/-- Witness for the amended C8 theorem: after a setup/drop pair the flag
is down, and the following setup-free events (a second drop and the
interrupt) emit no further reset. -/
theorem iterm_guard_protocol_amended_witness :
    (runTerm ([TermEvent.setup, TermEvent.drop] ++
        [TermEvent.drop, TermEvent.interrupt])).resets =
      (runTerm [TermEvent.setup, TermEvent.drop]).resets :=
  (iterm_guard_protocol_amended [TermEvent.setup, TermEvent.drop]
    [TermEvent.drop, TermEvent.interrupt]).2.2.1 (by decide) (by decide)

/-! ### C10: failed status queries during enumeration -/

/-- Membership through one insertion step of the by-path sort. -/
theorem mem_insertByPath (a w : WorktreeInfo) :
    ∀ (l : List WorktreeInfo), a ∈ insertByPath w l ↔ a = w ∨ a ∈ l := by
  intro l
  induction l with
  | nil => simp [insertByPath]
  | cons x xs ih =>
    by_cases h : w.path ≤ x.path
    · simp [insertByPath, h]
    · simp [insertByPath, h, ih]
      tauto

/-- The by-path sort preserves membership. -/
theorem mem_sortByPath (a : WorktreeInfo) :
    ∀ (l : List WorktreeInfo), a ∈ sortByPath l ↔ a ∈ l := by
  intro l
  induction l with
  | nil => simp [sortByPath]
  | cons x xs ih =>
    simp [sortByPath, mem_insertByPath, ih]

/-- Every record the porcelain grouping emits for a worktree whose status
query fails carries `has_changes = false`. -/
theorem parseWorktrees_error_clean
    (repo_root : String) (statusOf : String → Except String Bool) :
    ∀ (lines : List String) (curPath curBranch : Option String)
      (wt : WorktreeInfo),
      wt ∈ parseWorktrees repo_root statusOf lines curPath curBranch →
      (∃ e, statusOf wt.path = Except.error e) →
      wt.has_changes = false := by
  intro lines
  induction lines with
  | nil =>
    intro curPath curBranch wt hmem
    simp [parseWorktrees] at hmem
  | cons line rest ih =>
    intro curPath curBranch wt hmem herr
    rw [parseWorktrees.eq_def] at hmem
    rcases hw : stripPrefixS "worktree " line with _ | p
    · rcases hb : stripPrefixS "branch refs/heads/" line with _ | b
      · by_cases hempty : line = ""
        · rw [hempty] at hw hb hmem
          rcases curPath with _ | path
          · simp [hw, hb] at hmem
            exact ih none none wt hmem herr
          · by_cases hroot : path = repo_root
            · simp [hw, hb, hroot] at hmem
              exact ih none none wt hmem herr
            · simp [hw, hb, hroot] at hmem
              rcases hmem with hwt | hmem
              · rcases herr with ⟨e, he⟩
                subst hwt
                simp at he
                simp [unwrapOr, he]
              · exact ih none none wt hmem herr
        · simp [hw, hb, hempty] at hmem
          exact ih curPath curBranch wt hmem herr
      · simp only [hw, hb, Option.isSome_none, Option.isSome_some,
          Bool.false_eq_true, if_false, if_true, reduceIte] at hmem
        exact ih curPath (some b) wt hmem herr
    · simp only [hw, Option.isSome_some, if_true, reduceIte] at hmem
      exact ih (some p) curBranch wt hmem herr

/-- C10: a worktree whose dirty-status query fails is recorded as clean by
the enumeration, and `checkout clean` therefore lists it among the removal
candidates. -/
theorem clean_treats_failed_status_as_clean :
    ∀ (repo_root : String) (statusOf : String → Except String Bool)
      (lines : List String) (wt : WorktreeInfo),
      wt ∈ get_all_worktrees repo_root statusOf lines →
      (∃ e, statusOf wt.path = Except.error e) →
      wt.has_changes = false ∧
        wt ∈ run_clean_candidates repo_root statusOf lines := by
  intro repo_root statusOf lines wt hmem herr
  have hmem2 : wt ∈ parseWorktrees repo_root statusOf lines none none :=
    (mem_sortByPath wt _).1 hmem
  have hclean := parseWorktrees_error_clean repo_root statusOf lines none none wt hmem2 herr
  refine ⟨hclean, ?_⟩
  rw [run_clean_candidates, List.mem_filter]
  exact ⟨hmem, by simp [hclean]⟩

/-- Witness for C10: with a porcelain listing of one worktree and a status
oracle that fails on it, the worktree is recorded clean and shows up among
the removal candidates. -/
theorem clean_treats_failed_status_as_clean_witness :
    ({ path := "/wt/a", branch := "(detached)", has_changes := false } :
        WorktreeInfo).has_changes = false ∧
    ({ path := "/wt/a", branch := "(detached)", has_changes := false } :
        WorktreeInfo) ∈
      run_clean_candidates "/repo"
        (fun p => if p = "/wt/a" then Except.error "boom" else Except.ok true)
        ["worktree /wt/a", ""] :=
  clean_treats_failed_status_as_clean "/repo"
    (fun p => if p = "/wt/a" then Except.error "boom" else Except.ok true)
    ["worktree /wt/a", ""]
    { path := "/wt/a", branch := "(detached)", has_changes := false }
    (by decide) ⟨"boom", rfl⟩

/-! ### C7: color assignment -/

/-- Filtering a fresh key out of the color state is the identity. -/
theorem filter_of_find?_none (key : String) :
    ∀ (st : ColorState),
      st.find? (fun e => e.1 = key) = none →
      st.filter (fun e => e.1 ≠ key) = st := by
  intro st h
  rw [List.find?_eq_none] at h
  rw [List.filter_eq_self]
  intro e he
  have := h e he
  simpa using this

/-- Assigning colors to fresh, pairwise-distinct worktree names starting
from a state whose used colors are exactly the first `k` palette entries
hands out the following palette entries in order. -/
theorem assignColors_fresh :
    ∀ (names : List String) (st : ColorState) (k : Nat),
      k + names.length ≤ 12 →
      get_used_colors st = (COLOR_PALETTE.take k).reverse →
      (∀ n ∈ names, st.find? (fun e => e.1 = fileNameOf n) = none) →
      (names.map fileNameOf).Nodup →
      assignColors st names = (COLOR_PALETTE.drop k).take names.length := by
  intro names
  induction names with
  | nil =>
    intro st k _ _ _ _
    simp [assignColors]
  | cons n ns ih =>
    intro st k hlen hused hfresh hnodup
    have hk : k < 12 := by
      simp only [List.length_cons] at hlen
      omega
    have hkp : k < COLOR_PALETTE.length := by
      rw [show COLOR_PALETTE.length = 12 from by decide]
      exact hk
    have hfn : st.find? (fun e => e.1 = fileNameOf n) = none :=
      hfresh n (List.mem_cons_self n ns)
    have hgwc : get_worktree_color st n = none := by
      simp [get_worktree_color, hfn]
    have hfind : COLOR_PALETTE.find?
        (fun c => !((COLOR_PALETTE.take k).reverse.contains c)) =
        some (COLOR_PALETTE.getD k "") := by
      interval_cases k <;> decide
    have hpick : pick_available_color st n = COLOR_PALETTE.getD k "" := by
      simp only [pick_available_color, hgwc]
      rw [hused, hfind]
    have hsave : save_worktree_color st n (COLOR_PALETTE.getD k "") =
        (fileNameOf n, COLOR_PALETTE.getD k "") :: st := by
      rw [save_worktree_color, filter_of_find?_none (fileNameOf n) st hfn]
    have hused2 : get_used_colors
        ((fileNameOf n, COLOR_PALETTE.getD k "") :: st) =
        (COLOR_PALETTE.take (k + 1)).reverse := by
      have htake : (COLOR_PALETTE.take (k + 1)).reverse =
          COLOR_PALETTE.getD k "" :: (COLOR_PALETTE.take k).reverse := by
        rw [List.take_succ, List.getElem?_eq_getElem hkp,
          List.getD_eq_getElem COLOR_PALETTE "" hkp]
        simp
      rw [htake]
      simp only [get_used_colors, List.map_cons]
      rw [← hused]
      rfl
    have hfresh2 : ∀ m ∈ ns,
        ((fileNameOf n, COLOR_PALETTE.getD k "") :: st).find?
          (fun e => e.1 = fileNameOf m) = none := by
      intro m hm
      have hne : fileNameOf n ≠ fileNameOf m := by
        intro heq
        have hmem : fileNameOf n ∈ ns.map fileNameOf := by
          rw [heq]
          exact List.mem_map_of_mem fileNameOf hm
        simp only [List.map_cons, List.nodup_cons] at hnodup
        exact hnodup.1 hmem
      rw [List.find?_cons_of_neg]
      · exact hfresh m (List.mem_cons_of_mem n hm)
      · simpa using hne
    have hrec := ih ((fileNameOf n, COLOR_PALETTE.getD k "") :: st) (k + 1)
      (by simp only [List.length_cons] at hlen; omega) hused2 hfresh2
      ((List.map_cons fileNameOf n ns ▸ hnodup).of_cons)
    have hdrop : COLOR_PALETTE.drop k =
        COLOR_PALETTE.getD k "" :: COLOR_PALETTE.drop (k + 1) := by
      rw [List.getD_eq_getElem COLOR_PALETTE "" hkp]
      exact List.drop_eq_getElem_cons hkp
    rw [assignColors, hpick, hsave, hrec, hdrop, List.length_cons,
      List.take_succ_cons]

/-- C7: starting from an empty color directory, assigning colors to at
most twelve worktree paths with pairwise-distinct directory names hands
out the first palette colors in order — pairwise distinct; and once every
palette color is in use, a fresh worktree gets the palette color indexed
by the byte-sum hash of its path modulo the palette size. -/
theorem pick_available_color_spec :
    (∀ (names : List String), (names.map fileNameOf).Nodup →
      names.length ≤ 12 →
      assignColors [] names = COLOR_PALETTE.take names.length ∧
        (assignColors [] names).Nodup) ∧
    (∀ (st : ColorState) (path : String),
      get_worktree_color st path = none →
      (∀ c ∈ COLOR_PALETTE, c ∈ get_used_colors st) →
      pick_available_color st path =
        COLOR_PALETTE.getD (byteSumHash path % COLOR_PALETTE.length) "") := by
  constructor
  · intro names hnodup hlen
    have h := assignColors_fresh names [] 0 (by omega)
      (by simp [get_used_colors]) (by simp) hnodup
    rw [List.drop_zero] at h
    refine ⟨h, ?_⟩
    rw [h]
    exact (List.take_sublist names.length COLOR_PALETTE).nodup
      (by decide : COLOR_PALETTE.Nodup)
  · intro st path hgwc hall
    have hnone : COLOR_PALETTE.find?
        (fun c => !(get_used_colors st).contains c) = none := by
      rw [List.find?_eq_none]
      intro c hc
      have := hall c hc
      simp [this]
    simp only [pick_available_color, hgwc]
    rw [hnone]

/-- Witness for C7: two fresh names receive the first two palette colors,
and a fully-used palette sends a fresh path to its hash-indexed color. -/
theorem pick_available_color_spec_witness :
    assignColors [] ["pr-1-a", "pr-2-b"] = COLOR_PALETTE.take 2 ∧
      (assignColors [] ["pr-1-a", "pr-2-b"]).Nodup :=
  pick_available_color_spec.1 ["pr-1-a", "pr-2-b"] (by decide) (by decide)

/-! ### C1: the reference parser -/

/-- A nonempty all-digit list within `u64` range parses to its value. -/
theorem parseU64?_digits (l : List Char) (hne : l ≠ [])
    (hall : l.all Char.isDigit = true) (hlt : digitsVal l < 2 ^ 64) :
    parseU64? l = some (digitsVal l) := by
  rcases l with _ | ⟨c, rest⟩
  · exact absurd rfl hne
  · have hc : c.isDigit = true :=
      List.all_eq_true.mp hall c (List.mem_cons_self c rest)
    have hcp : ¬(c = '+') := by
      intro h
      rw [h] at hc
      exact absurd hc (by decide)
    simp only [parseU64?, if_neg hcp]
    rw [if_neg (by simp), if_pos hall, if_pos hlt]

/-- A list containing a slash never parses as a `u64`. -/
theorem parseU64?_slash_none (l : List Char) (hmem : '/' ∈ l) :
    parseU64? l = none := by
  rcases l with _ | ⟨c, rest⟩
  · simp at hmem
  · by_cases hcp : c = '+'
    · subst hcp
      have hm2 : '/' ∈ rest := by
        rcases List.mem_cons.mp hmem with h | h
        · exact absurd h (by decide)
        · exact h
      have hall : rest.all Char.isDigit = false := by
        rw [List.all_eq_false]
        exact ⟨'/', hm2, by decide⟩
      simp [parseU64?, hall]
    · have hall : (c :: rest).all Char.isDigit = false := by
        rw [List.all_eq_false]
        exact ⟨'/', hmem, by decide⟩
      simp [parseU64?, hcp, hall]

/-- A successful anchored match captures a nonempty all-digit run. -/
theorem matchPullAt_digits (s ds : List Char) (h : matchPullAt s = some ds) :
    ds ≠ [] ∧ ds.all Char.isDigit = true := by
  rcases hdp : s.dropPrefix? "/pull/".data with _ | rest
  · simp [matchPullAt, hdp] at h
  · rcases rest with _ | ⟨d, t⟩
    · simp [matchPullAt, hdp] at h
    · by_cases hd : d.isDigit = true
      · simp only [matchPullAt, hdp, hd, if_true, Option.some.injEq] at h
        subst h
        constructor
        · simp [List.takeWhile_cons, hd]
        · rw [List.all_eq_true]
          intro x hx
          exact List.mem_takeWhile_imp hx
      · simp [matchPullAt, hdp, hd] at h

/-- A successful anchored match implies the list contains a slash. -/
theorem matchPullAt_slash (s ds : List Char) (h : matchPullAt s = some ds) :
    '/' ∈ s := by
  rcases hdp : s.dropPrefix? "/pull/".data with _ | rest
  · simp [matchPullAt, hdp] at h
  · rw [List.dropPrefix?_eq_some_iff] at hdp
    rcases hdp with ⟨p2, hs, hbeq⟩
    have hp2 : p2 = "/pull/".data := by
      simpa using hbeq
    rw [hs, hp2]
    exact List.mem_append_left _ (by decide)

/-- The scan of `findPullNumber` returns the match at the leftmost
matching start position. -/
theorem findPullNumber_of_matchAt :
    ∀ (l : List Char) (i : Nat) (ds : List Char),
      matchPullAt (l.drop i) = some ds →
      (∀ j, j < i → matchPullAt (l.drop j) = none) →
      findPullNumber l = some ds := by
  intro l
  induction l with
  | nil =>
    intro i ds h1 _
    rw [List.drop_nil] at h1
    have hnone : matchPullAt [] = none := rfl
    rw [hnone] at h1
    exact Option.noConfusion h1
  | cons c rest ih =>
    intro i ds h1 h2
    rcases i with _ | i
    · rw [List.drop_zero] at h1
      rw [findPullNumber, h1]
    · have h0 : matchPullAt (c :: rest) = none := by
        have := h2 0 (Nat.succ_pos i)
        rwa [List.drop_zero] at this
      rw [findPullNumber, h0]
      rw [List.drop_succ_cons] at h1
      exact ih i ds h1 (fun j hj => by
        have := h2 (j + 1) (by omega)
        rwa [List.drop_succ_cons] at this)

/-- When no start position matches, the scan fails. -/
theorem findPullNumber_none :
    ∀ (l : List Char), (∀ i, matchPullAt (l.drop i) = none) →
      findPullNumber l = none := by
  intro l
  induction l with
  | nil => intro _; rfl
  | cons c rest ih =>
    intro h
    have h0 : matchPullAt (c :: rest) = none := by
      have := h 0
      rwa [List.drop_zero] at this
    rw [findPullNumber, h0]
    exact ih (fun i => by
      have := h (i + 1)
      rwa [List.drop_succ_cons] at this)

/-- C1 is falsified by a pure decimal digit string whose value exceeds the
`u64` range: the code returns the parse error instead of that integer. -/
theorem extract_pr_number_overflow_cex :
    "18446744073709551616".data.all Char.isDigit = true ∧
    "18446744073709551616".data ≠ [] ∧
    extract_pr_number "18446744073709551616" =
      Except.error
        "Could not parse PR number from '18446744073709551616'. Expected a number or GitHub PR URL." := by
  exact ⟨by decide, by decide, rfl⟩

/-- C1 (amended): a nonempty decimal digit string whose value fits in 64
bits parses to that integer; an input whose leftmost `/pull/<digits>`
match has a value fitting in 64 bits yields that value; a leftmost match
whose digits overflow yields the generic parse error (which does not name
the input); and an input that neither parses as a `u64` nor contains
`/pull/<digits>` yields the error naming the offending input. -/
theorem extract_pr_number_amended :
    ∀ (s : String),
      (s.data ≠ [] → s.data.all Char.isDigit = true →
        digitsVal s.data < 2 ^ 64 →
        extract_pr_number s = Except.ok (digitsVal s.data)) ∧
      (∀ (i : Nat) (ds : List Char),
        matchPullAt (s.data.drop i) = some ds →
        (∀ j, j < i → matchPullAt (s.data.drop j) = none) →
        digitsVal ds < 2 ^ 64 →
        extract_pr_number s = Except.ok (digitsVal ds)) ∧
      (∀ (i : Nat) (ds : List Char),
        matchPullAt (s.data.drop i) = some ds →
        (∀ j, j < i → matchPullAt (s.data.drop j) = none) →
        2 ^ 64 ≤ digitsVal ds →
        extract_pr_number s = Except.error "Failed to parse PR number") ∧
      ((∀ i, matchPullAt (s.data.drop i) = none) →
        parseU64? s.data = none →
        extract_pr_number s =
          Except.error ("Could not parse PR number from '" ++ s ++
            "'. Expected a number or GitHub PR URL.")) := by
  intro s
  refine ⟨?_, ?_, ?_, ?_⟩
  · intro hne hall hlt
    simp [extract_pr_number, parseU64?_digits s.data hne hall hlt]
  · intro i ds h1 h2 hlt
    have hslash : '/' ∈ s.data :=
      List.drop_subset i s.data (matchPullAt_slash _ ds h1)
    have hnum : parseU64? s.data = none := parseU64?_slash_none s.data hslash
    have hfind : findPullNumber s.data = some ds :=
      findPullNumber_of_matchAt s.data i ds h1 h2
    have hds := matchPullAt_digits _ ds h1
    simp [extract_pr_number, hnum, hfind, parseU64?_digits ds hds.1 hds.2 hlt]
  · intro i ds h1 h2 hge
    have hslash : '/' ∈ s.data :=
      List.drop_subset i s.data (matchPullAt_slash _ ds h1)
    have hnum : parseU64? s.data = none := parseU64?_slash_none s.data hslash
    have hfind : findPullNumber s.data = some ds :=
      findPullNumber_of_matchAt s.data i ds h1 h2
    have hds := matchPullAt_digits _ ds h1
    have hpds : parseU64? ds = none := by
      rcases ds with _ | ⟨c, rest⟩
      · exact absurd rfl hds.1
      · have hc : c.isDigit = true :=
          List.all_eq_true.mp hds.2 c (List.mem_cons_self c rest)
        have hcp : ¬(c = '+') := by
          intro h
          rw [h] at hc
          exact absurd hc (by decide)
        simp only [parseU64?, if_neg hcp]
        rw [if_neg (by simp), if_pos hds.2, if_neg (by omega)]
    simp [extract_pr_number, hnum, hfind, hpds]
  · intro hnomatch hnum
    simp [extract_pr_number, hnum, findPullNumber_none s.data hnomatch]

/-- Witness for the amended C1 theorem: the plain input `123` parses to
123, and a PR URL yields the number captured after the leftmost
`/pull/`. -/
theorem extract_pr_number_amended_witness :
    extract_pr_number "123" = Except.ok (digitsVal "123".data) ∧
    extract_pr_number "https://github.com/figma/figma/pull/456" =
      Except.ok (digitsVal ['4', '5', '6']) :=
  ⟨(extract_pr_number_amended "123").1 (by decide) (by decide) (by decide),
   (extract_pr_number_amended "https://github.com/figma/figma/pull/456").2.1 30
     ['4', '5', '6'] (by decide)
     (fun j hj => by
       interval_cases j <;> decide)
     (by decide)⟩

/-! ### C9: trust-list editing -/

/-- Lookup after insert-or-overwrite. -/
theorem lookupField_insertField :
    ∀ (fs : List (String × Json)) (k : String) (v : Json) (k2 : String),
      lookupField (insertField fs k v) k2 =
        if k2 = k then some v else lookupField fs k2 := by
  intro fs k v
  induction fs with
  | nil =>
    intro k2
    by_cases h : k2 = k
    · simp [insertField, lookupField, h]
    · simp [insertField, lookupField, h, Ne.symm h]
  | cons e fs ih =>
    rcases e with ⟨ek, ev⟩
    intro k2
    by_cases hk : ek = k
    · subst hk
      by_cases h2 : k2 = ek
      · subst h2
        simp [insertField, lookupField]
      · simp [insertField, lookupField, h2, Ne.symm h2]
    · by_cases h2 : k2 = k
      · subst h2
        simp [insertField, lookupField, hk, ih, Ne.symm hk]
      · simp [insertField, lookupField, hk, ih, h2]

/-- Lookup after removing a set of keys. -/
theorem lookupField_filter_keys :
    ∀ (fs : List (String × Json)) (ks : List String) (k : String),
      lookupField (fs.filter (fun e => !ks.contains e.1)) k =
        if ks.contains k = true then none else lookupField fs k := by
  intro fs ks
  induction fs with
  | nil => intro k; simp [lookupField]
  | cons e fs ih =>
    intro k
    by_cases hmem : ks.contains e.1 = true
    · have hm : e.1 ∈ ks := by simpa using hmem
      rw [List.filter_cons, if_neg (by simp [hm])]
      by_cases hk : e.1 = k
      · rw [ih, if_pos (hk ▸ hmem)]
        rw [if_pos (hk ▸ hmem)]
      · rw [ih]
        by_cases hk2 : ks.contains k = true
        · rw [if_pos hk2, if_pos hk2]
        · rw [if_neg hk2, if_neg hk2]
          simp [lookupField, hk]
    · have hnm : e.1 ∉ ks := by simpa using hmem
      rw [List.filter_cons, if_pos (by simp [hnm])]
      by_cases hk : e.1 = k
      · subst hk
        simp [lookupField, hnm, hmem]
      · simp only [lookupField, if_neg hk]
        exact ih k

/-- String index-assignment on an object-or-null value: the assignment
succeeds, stores the value at the key, and leaves every other lookup as it
was. -/
theorem setKey_objOrNull (j : Json) (hj : j.isObjOrNull = true)
    (k : String) (v : Json) :
    ∃ fs2, j.setKey k v = some (Json.obj fs2) ∧
      lookupField fs2 k = some v ∧
      (∀ k2, k2 ≠ k → lookupField fs2 k2 = j.get? k2) := by
  rcases j with _ | b | n | s | xs | fs
  · refine ⟨[(k, v)], rfl, by simp [lookupField], ?_⟩
    intro k2 hk2
    simp [lookupField, Json.get?, Ne.symm hk2]
  · simp [Json.isObjOrNull] at hj
  · simp [Json.isObjOrNull] at hj
  · simp [Json.isObjOrNull] at hj
  · simp [Json.isObjOrNull] at hj
  · refine ⟨insertField fs k v, rfl, ?_, ?_⟩
    · rw [lookupField_insertField, if_pos rfl]
    · intro k2 hk2
      rw [lookupField_insertField, if_neg hk2]
      rfl

/-- Two-level index-assignment `data[k1][k2] = v` on an object whose `k1`
member (defaulting to `Null`) is object-or-null: the result replaces that
member by an object holding `v` at `k2` and the member's other entries
unchanged. -/
theorem setKey2_obj (fs1 : List (String × Json)) (k1 k2 : String) (v : Json)
    (hP : ((lookupField fs1 k1).getD Json.null).isObjOrNull = true) :
    ∃ fs3, (Json.obj fs1).setKey2 k1 k2 v =
        some (Json.obj (insertField fs1 k1 (Json.obj fs3))) ∧
      lookupField fs3 k2 = some v ∧
      (∀ k, k ≠ k2 → lookupField fs3 k =
        ((lookupField fs1 k1).getD Json.null).get? k) := by
  obtain ⟨fs3, hset, hk2, hother⟩ :=
    setKey_objOrNull ((lookupField fs1 k1).getD Json.null) hP k2 v
  refine ⟨fs3, ?_, hk2, hother⟩
  simp only [Json.setKey2, hset]
  rfl

/-- The ensure-projects step of `add_claude_trust`: on an object-or-null
document it yields an object whose `projects` member is present and
object-or-null, other members untouched, and whose `projects` lookups
agree with the original document's. -/
theorem add_claude_trust_ensure (data : Json)
    (hobj : data.isObjOrNull = true)
    (hW2 : ∀ pv, data.get? "projects" = some pv → pv.isObjOrNull = true) :
    ∃ fs1 P,
      (if (data.get? "projects").isNone then
        data.setKey "projects" (Json.obj [])
      else some data) = some (Json.obj fs1) ∧
      lookupField fs1 "projects" = some P ∧
      P.isObjOrNull = true ∧
      (∀ k, k ≠ "projects" → lookupField fs1 k = data.get? k) ∧
      (∀ k, P.get? k = (data.get? "projects").bind (fun p => p.get? k)) := by
  rcases data with _ | b | n | s | xs | fs
  · refine ⟨[("projects", Json.obj [])], Json.obj [], ?_, ?_, rfl, ?_, ?_⟩
    · simp [Json.get?, Json.setKey]
    · simp [lookupField]
    · intro k hk
      simp [lookupField, Json.get?, Ne.symm hk]
    · intro k
      simp [Json.get?, lookupField]
  · simp [Json.isObjOrNull] at hobj
  · simp [Json.isObjOrNull] at hobj
  · simp [Json.isObjOrNull] at hobj
  · simp [Json.isObjOrNull] at hobj
  · rcases hlp : lookupField fs "projects" with _ | pv
    · refine ⟨insertField fs "projects" (Json.obj []), Json.obj [], ?_, ?_, rfl, ?_, ?_⟩
      · simp [Json.get?, hlp, Json.setKey]
      · rw [lookupField_insertField, if_pos rfl]
      · intro k hk
        rw [lookupField_insertField, if_neg hk]
        rfl
      · intro k
        simp [Json.get?, hlp, lookupField]
    · refine ⟨fs, pv, ?_, hlp, hW2 pv (by simpa [Json.get?] using hlp), ?_, ?_⟩
      · simp [Json.get?, hlp]
      · intro k _
        rfl
      · intro k
        simp [Json.get?, hlp]

/-- C9 is falsified on a trust-list document whose top level is a JSON
array: `serde_json` string indexing panics there, so the function aborts
(modelled as `none`) instead of producing the described document. -/
theorem add_claude_trust_array_panic_cex :
    add_claude_trust (some (Json.arr [])) "/wt/pr-1-x" "/repo" = none := rfl

/-- C9 (amended): provided the document (or `{}` when the file is absent)
is an object or `null`, its `projects` member — when present — is an
object or `null`, and the main repo's entry — when present — is an object
or `null` (on any other shape the `serde_json` index-assignment panics and
no document is produced), `add_claude_trust` yields a document whose
`projects` object maps the worktree path to the main repo's entry (or the
default template) with `hasTrustDialogAccepted` forced `true` and the
session-usage fields removed, while every other key of the `projects`
object and every other top-level key are unchanged and no entry is
deleted. -/
theorem add_claude_trust_amended :
    ∀ (initial : Option Json) (wp rr : String),
      (initial.getD (Json.obj [])).isObjOrNull = true →
      (∀ pv, (initial.getD (Json.obj [])).get? "projects" = some pv →
        pv.isObjOrNull = true) →
      (∀ bv, projLookup (initial.getD (Json.obj [])) rr = some bv →
        bv.isObjOrNull = true) →
      ∃ doc, add_claude_trust initial wp rr = some doc ∧
        projLookup doc wp = some (expectedTrustEntry initial rr) ∧
        (∀ k, k ≠ wp →
          projLookup doc k = projLookup (initial.getD (Json.obj [])) k) ∧
        (∀ k, k ≠ "projects" →
          doc.get? k = (initial.getD (Json.obj [])).get? k) ∧
        (expectedTrustEntry initial rr).get? "hasTrustDialogAccepted" =
          some (Json.bool true) ∧
        (∀ f, f ∈ sessionFields →
          (expectedTrustEntry initial rr).get? f = none) := by
  intro initial wp rr hW1 hW2 hW3
  set data := initial.getD (Json.obj []) with hdata
  obtain ⟨fs1, P, hstep, hPfind, hPon, hfs1, hPget⟩ :=
    add_claude_trust_ensure data hW1 hW2
  have hBon : ((((data.get? "projects").bind (fun p => p.get? rr)).getD
      defaultProjectTemplate)).isObjOrNull = true := by
    rcases hb : (data.get? "projects").bind (fun p => p.get? rr) with _ | bv
    · rw [Option.getD_none]
      rfl
    · rw [Option.getD_some]
      exact hW3 bv (by rw [projLookup]; exact hb)
  obtain ⟨wfs, hwt, hwtT, hwtO⟩ :=
    setKey_objOrNull (((data.get? "projects").bind (fun p => p.get? rr)).getD
      defaultProjectTemplate) hBon "hasTrustDialogAccepted" (Json.bool true)
  have hentry : expectedTrustEntry initial rr =
      removeFields (Json.obj wfs) sessionFields := by
    rw [expectedTrustEntry]
    rw [← hdata]
    rw [hwt, Option.getD_some]
  have hP2 : ((lookupField fs1 "projects").getD Json.null).isObjOrNull = true := by
    rw [hPfind, Option.getD_some]
    exact hPon
  obtain ⟨fs3, hsk2, hfs3wp, hfs3o⟩ :=
    setKey2_obj fs1 "projects" wp (removeFields (Json.obj wfs) sessionFields) hP2
  have hrun : add_claude_trust initial wp rr =
      some (Json.obj (insertField fs1 "projects" (Json.obj fs3))) := by
    simp only [add_claude_trust]
    rw [← hdata]
    simp only [hstep]
    rw [show (Json.obj fs1).get? "projects" = some P from hPfind]
    simp only [Option.some_bind]
    rw [hPget rr]
    simp only [hwt]
    rw [hsk2]
  have hdocproj :
      (Json.obj (insertField fs1 "projects" (Json.obj fs3))).get? "projects" =
        some (Json.obj fs3) := by
    simp only [Json.get?]
    rw [lookupField_insertField, if_pos rfl]
  refine ⟨Json.obj (insertField fs1 "projects" (Json.obj fs3)), hrun,
    ?_, ?_, ?_, ?_, ?_⟩
  · rw [projLookup, hdocproj, Option.some_bind, hentry]
    simp only [Json.get?]
    exact hfs3wp
  · intro k hk
    rw [projLookup, hdocproj, Option.some_bind, projLookup]
    simp only [Json.get?]
    rw [hfs3o k hk, hPfind, Option.getD_some]
    exact hPget k
  · intro k hk
    simp only [Json.get?]
    rw [lookupField_insertField, if_neg hk]
    exact hfs1 k hk
  · rw [hentry]
    simp only [removeFields, Json.get?]
    rw [lookupField_filter_keys, if_neg (by decide)]
    exact hwtT
  · intro f hf
    rw [hentry]
    simp only [removeFields, Json.get?]
    rw [lookupField_filter_keys, if_pos (by simpa using hf)]

/-- Witness for the amended C9 theorem: an absent trust-list file (the
empty-document default) satisfies all the shape hypotheses. -/
theorem add_claude_trust_amended_witness :
    ∃ doc, add_claude_trust none "/wt/pr-1-x" "/repo" = some doc ∧
      projLookup doc "/wt/pr-1-x" =
        some (expectedTrustEntry none "/repo") ∧
      (∀ k, k ≠ "/wt/pr-1-x" →
        projLookup doc k = projLookup ((none : Option Json).getD (Json.obj [])) k) ∧
      (∀ k, k ≠ "projects" →
        doc.get? k = ((none : Option Json).getD (Json.obj [])).get? k) ∧
      (expectedTrustEntry none "/repo").get? "hasTrustDialogAccepted" =
        some (Json.bool true) ∧
      (∀ f, f ∈ sessionFields →
        (expectedTrustEntry none "/repo").get? f = none) :=
  add_claude_trust_amended none "/wt/pr-1-x" "/repo" rfl
    (fun _ hpv => Option.noConfusion hpv)
    (fun _ hbv => Option.noConfusion hbv)

/-! ### C6: idempotence of the slug generator -/

/-- Reading back a valid scalar value. -/
theorem char_toNat_ofNat (n : Nat) (h : n.isValidChar) :
    (Char.ofNat n).toNat = n := by
  rw [Char.ofNat, dif_pos h]
  rcases h with h1 | h1
  all_goals rfl

/-- ASCII lower-casing is idempotent. -/
theorem toLower_idem (c : Char) : (c.toLower).toLower = c.toLower := by
  by_cases h : c.toNat ≥ 65 ∧ c.toNat ≤ 90
  · have h1 : c.toLower = Char.ofNat (c.toNat + 32) := by
      unfold Char.toLower
      rw [if_pos h]
    have hv : (Char.ofNat (c.toNat + 32)).toNat = c.toNat + 32 :=
      char_toNat_ofNat _ (Or.inl (by omega))
    rw [h1]
    conv_lhs => unfold Char.toLower
    rw [if_neg (by rw [hv]; omega)]
  · have h1 : c.toLower = c := by
      unfold Char.toLower
      rw [if_neg h]
    rw [h1, h1]

/-- The empty intercalation. -/
theorem intercalate_nil (sep : List Char) :
    List.intercalate sep ([] : List (List Char)) = [] := by
  simp [List.intercalate]

/-- Intercalating a single piece. -/
theorem intercalate_single (sep s : List Char) :
    List.intercalate sep [s] = s := by
  simp [List.intercalate]

/-- Unfolding one separator of an intercalation. -/
theorem intercalate_cons2 (sep s t : List Char) (rest : List (List Char)) :
    List.intercalate sep (s :: t :: rest) =
      s ++ sep ++ List.intercalate sep (t :: rest) := by
  simp [List.intercalate, List.intersperse]

/-- A map that fixes every member fixes the list. -/
theorem map_id_of_mem (l : List Char) (f : Char → Char)
    (h : ∀ c ∈ l, f c = c) : l.map f = l := by
  induction l with
  | nil => rfl
  | cons c t ih =>
    rw [List.map_cons, h c (List.mem_cons_self c t),
      ih (fun x hx => h x (List.mem_cons_of_mem c hx))]

/-- A string with no colon has no `": "` separator. -/
theorem afterColonSpace?_eq_none (l : List Char) (h : ∀ c ∈ l, c ≠ ':') :
    afterColonSpace? l = none := by
  induction l with
  | nil => rfl
  | cons c t ih =>
    rw [afterColonSpace?.eq_def]
    simp only
    rw [if_neg (h c (List.mem_cons_self c t))]
    exact ih (fun x hx => h x (List.mem_cons_of_mem c hx))

/-- Members of an intercalation are the separator or members of a piece. -/
theorem mem_intercalate_cases :
    ∀ (L : List (List Char)) (c : Char), c ∈ List.intercalate ['-'] L →
      c = '-' ∨ ∃ s ∈ L, c ∈ s := by
  intro L
  induction L with
  | nil =>
    intro c hc
    rw [intercalate_nil] at hc
    simp at hc
  | cons s rest ih =>
    intro c hc
    rcases rest with _ | ⟨t, rest2⟩
    · rw [intercalate_single] at hc
      exact Or.inr ⟨s, List.mem_cons_self s [], hc⟩
    · rw [intercalate_cons2] at hc
      rcases List.mem_append.mp hc with h1 | h1
      · rcases List.mem_append.mp h1 with h2 | h2
        · exact Or.inr ⟨s, List.mem_cons_self s _, h2⟩
        · exact Or.inl (by simpa using h2)
      · rcases ih c h1 with h2 | ⟨u, hu, hcu⟩
        · exact Or.inl h2
        · exact Or.inr ⟨u, List.mem_cons_of_mem s hu, hcu⟩

/-- The head of a successful lookup is a member. -/
theorem mem_of_head?_some (l : List Char) (c : Char) (h : l.head? = some c) :
    c ∈ l := by
  rcases l with _ | ⟨a, t⟩
  · exact absurd h (by simp)
  · simp at h
    subst h
    exact List.mem_cons_self a t

/-- The last element of a successful lookup is a member. -/
theorem mem_of_getLast?_some (l : List Char) (c : Char)
    (h : l.getLast? = some c) : c ∈ l := by
  rw [← List.head?_reverse] at h
  have := mem_of_head?_some l.reverse c h
  exact List.mem_reverse.mp this

/-- Hyphen collapsing walks through a hyphen-free block unchanged. -/
theorem collapse_append_hyphen_free :
    ∀ (s w : List Char), (∀ c ∈ s, c ≠ '-') →
      collapseHyphens (s ++ w) = s ++ collapseHyphens w := by
  intro s
  induction s with
  | nil => intro w _; rfl
  | cons c s2 ih =>
    intro w h
    have hc : c ≠ '-' := h c (List.mem_cons_self c s2)
    have h2 : ∀ x ∈ s2, x ≠ '-' := fun x hx => h x (List.mem_cons_of_mem c hx)
    rcases s2 with _ | ⟨z, s3⟩
    · rcases w with _ | ⟨y, w2⟩
      · simp [collapseHyphens]
      · simp only [List.nil_append, List.cons_append]
        rw [collapseHyphens]
        rw [if_neg (fun hcy => hc hcy.1)]
    · simp only [List.cons_append]
      rw [collapseHyphens.eq_def]
      simp only
      rw [if_neg (fun hcy => hc hcy.1)]
      have := ih w h2
      simp only [List.cons_append] at this
      rw [this]

/-- Hyphen collapsing keeps a single hyphen before a non-hyphen head. -/
theorem collapse_cons_hyphen (w : List Char)
    (h : ∀ c, w.head? = some c → c ≠ '-') :
    collapseHyphens ('-' :: w) = '-' :: collapseHyphens w := by
  rcases w with _ | ⟨y, w2⟩
  · rfl
  · have hy : y ≠ '-' := h y (by simp)
    rw [collapseHyphens]
    rw [if_neg (fun hcy => hy hcy.2)]

/-- The head of a nonempty leading piece is the head of the
intercalation. -/
theorem intercalate_head? (t : List Char) (rest : List (List Char))
    (ht : t ≠ []) :
    (List.intercalate ['-'] (t :: rest)).head? = t.head? := by
  rcases rest with _ | ⟨u, rest2⟩
  · rw [intercalate_single]
  · rw [intercalate_cons2, List.append_assoc]
    exact List.head?_append_of_ne_nil t ht

/-- An intercalation headed by a nonempty piece is nonempty. -/
theorem intercalate_ne_nil (t : List Char) (rest : List (List Char))
    (ht : t ≠ []) : List.intercalate ['-'] (t :: rest) ≠ [] := by
  rcases rest with _ | ⟨u, rest2⟩
  · rw [intercalate_single]
    exact ht
  · rw [intercalate_cons2]
    simp

/-- Collapsing is the identity on an intercalation of nonempty hyphen-free
pieces. -/
theorem collapse_intercalate :
    ∀ (L : List (List Char)),
      (∀ s ∈ L, s ≠ [] ∧ ∀ c ∈ s, c ≠ '-') →
      collapseHyphens (List.intercalate ['-'] L) = List.intercalate ['-'] L := by
  intro L
  induction L with
  | nil =>
    intro _
    rw [intercalate_nil]
    rfl
  | cons s rest ih =>
    intro h
    have hs := h s (List.mem_cons_self s rest)
    rcases rest with _ | ⟨t, rest2⟩
    · rw [intercalate_single]
      have := collapse_append_hyphen_free s [] hs.2
      simpa [show collapseHyphens [] = [] from rfl] using this
    · have ht := h t (List.mem_cons_of_mem s (List.mem_cons_self t rest2))
      rw [intercalate_cons2, List.append_assoc]
      rw [collapse_append_hyphen_free s _ hs.2]
      have hhead : ∀ c,
          (List.intercalate ['-'] (t :: rest2)).head? = some c → c ≠ '-' := by
        intro c hc
        rw [intercalate_head? t rest2 ht.1] at hc
        exact ht.2 c (mem_of_head?_some t c hc)
      have hcons :
          collapseHyphens ('-' :: List.intercalate ['-'] (t :: rest2)) =
            '-' :: collapseHyphens (List.intercalate ['-'] (t :: rest2)) :=
        collapse_cons_hyphen _ hhead
      simp only [List.singleton_append]
      rw [hcons, ih (fun u hu => h u (List.mem_cons_of_mem s hu))]

/-- Members of the collapsed list are members of the original. -/
theorem mem_of_mem_collapseHyphens :
    ∀ (l : List Char) (c : Char), c ∈ collapseHyphens l → c ∈ l := by
  intro l
  induction l with
  | nil => intro c hc; exact absurd hc (by simp [collapseHyphens])
  | cons c0 l2 ih =>
    intro c hc
    rcases l2 with _ | ⟨d, rest⟩
    · simpa [collapseHyphens] using hc
    · rw [collapseHyphens.eq_def] at hc
      simp only at hc
      by_cases hdd : c0 = '-' ∧ d = '-'
      · rw [if_pos hdd] at hc
        exact List.mem_cons_of_mem c0 (ih c hc)
      · rw [if_neg hdd] at hc
        rcases List.mem_cons.mp hc with h1 | h1
        · exact h1 ▸ List.mem_cons_self c0 _
        · exact List.mem_cons_of_mem c0 (ih c h1)

/-- Members of the trimmed list are members of the original. -/
theorem mem_of_mem_trimHyphens (l : List Char) (c : Char)
    (h : c ∈ trimHyphens l) : c ∈ l := by
  rw [trimHyphens] at h
  rw [List.mem_reverse] at h
  have h1 := (List.dropWhile_sublist _).subset h
  rw [List.mem_reverse] at h1
  exact (List.dropWhile_sublist _).subset h1

/-- Splitting a separator-free list yields that list alone. -/
theorem splitOnChar_sep_free (sep : Char) :
    ∀ (s : List Char), (∀ c ∈ s, c ≠ sep) → splitOnChar sep s = [s] := by
  intro s
  induction s with
  | nil => intro _; rfl
  | cons c s2 ih =>
    intro h
    rw [splitOnChar.eq_def]
    simp only
    rw [if_neg (h c (List.mem_cons_self c s2))]
    rw [ih (fun x hx => h x (List.mem_cons_of_mem c hx))]

/-- Splitting past a separator-free block then a separator. -/
theorem splitOnChar_append_sep (sep : Char) :
    ∀ (s t : List Char), (∀ c ∈ s, c ≠ sep) →
      splitOnChar sep (s ++ sep :: t) = s :: splitOnChar sep t := by
  intro s
  induction s with
  | nil =>
    intro t _
    rw [List.nil_append, splitOnChar.eq_def]
    simp
  | cons c s2 ih =>
    intro t h
    rw [List.cons_append, splitOnChar.eq_def]
    simp only
    rw [if_neg (h c (List.mem_cons_self c s2))]
    rw [ih t (fun x hx => h x (List.mem_cons_of_mem c hx))]

/-- Splitting inverts an intercalation of separator-free pieces. -/
theorem splitOnChar_intercalate :
    ∀ (L : List (List Char)), L ≠ [] →
      (∀ s ∈ L, ∀ c ∈ s, c ≠ '-') →
      splitOnChar '-' (List.intercalate ['-'] L) = L := by
  intro L
  induction L with
  | nil => intro h; exact absurd rfl h
  | cons s rest ih =>
    intro _ h
    rcases rest with _ | ⟨t, rest2⟩
    · rw [intercalate_single]
      exact splitOnChar_sep_free '-' s (h s (List.mem_cons_self s []))
    · rw [intercalate_cons2, List.append_assoc, List.singleton_append]
      rw [splitOnChar_append_sep '-' s _ (h s (List.mem_cons_self s _))]
      rw [ih (by simp) (fun u hu => h u (List.mem_cons_of_mem s hu))]

/-- Members of the pieces of a split come from the original list and are
never the separator. -/
theorem mem_of_mem_splitOnChar (sep : Char) :
    ∀ (l : List Char) (s : List Char) (c : Char),
      s ∈ splitOnChar sep l → c ∈ s → c ∈ l ∧ c ≠ sep := by
  intro l
  induction l with
  | nil =>
    intro s c hs hc
    simp [splitOnChar] at hs
    subst hs
    exact absurd hc (by simp)
  | cons c0 l2 ih =>
    intro s c hs hc
    rw [splitOnChar.eq_def] at hs
    simp only at hs
    by_cases h0 : c0 = sep
    · rw [if_pos h0] at hs
      rcases List.mem_cons.mp hs with h1 | h1
      · subst h1
        exact absurd hc (by simp)
      · have := ih s c h1 hc
        exact ⟨List.mem_cons_of_mem c0 this.1, this.2⟩
    · rw [if_neg h0] at hs
      rcases hrec : splitOnChar sep l2 with _ | ⟨s1, ss⟩
      · rw [hrec] at hs
        rcases List.mem_cons.mp hs with h1 | h1
        · subst h1
          rcases List.mem_cons.mp hc with h2 | h2
          · subst h2
            exact ⟨List.mem_cons_self c l2, h0⟩
          · exact absurd h2 (by simp)
        · exact absurd h1 (by simp)
      · rw [hrec] at hs
        rcases List.mem_cons.mp hs with h1 | h1
        · subst h1
          rcases List.mem_cons.mp hc with h2 | h2
          · subst h2
            exact ⟨List.mem_cons_self c l2, h0⟩
          · have := ih s1 c (hrec ▸ List.mem_cons_self s1 ss) h2
            exact ⟨List.mem_cons_of_mem c0 this.1, this.2⟩
        · have := ih s c (hrec ▸ List.mem_cons_of_mem s1 h1) hc
          exact ⟨List.mem_cons_of_mem c0 this.1, this.2⟩

/-- Trimming is the identity when neither end is a hyphen. -/
theorem trimHyphens_eq_self (y : List Char)
    (hhead : ∀ c, y.head? = some c → c ≠ '-')
    (hlast : ∀ c, y.getLast? = some c → c ≠ '-') :
    trimHyphens y = y := by
  have h1 : y.dropWhile (fun c => c = '-') = y := by
    rcases y with _ | ⟨c, rest⟩
    · rfl
    · rw [List.dropWhile_cons, if_neg (by simp [hhead c (by simp)])]
  rw [trimHyphens, h1]
  have h2 : y.reverse.dropWhile (fun c => c = '-') = y.reverse := by
    rcases hyr : y.reverse with _ | ⟨c, rest⟩
    · rfl
    · have hc : y.getLast? = some c := by
        rw [← List.head?_reverse, hyr]
        rfl
      rw [List.dropWhile_cons, if_neg (by simp [hlast c hc])]
  rw [h2, List.reverse_reverse]

/-- The last character of an intercalation of nonempty hyphen-free pieces
is not a hyphen. -/
theorem intercalate_getLast?_ne :
    ∀ (L : List (List Char)),
      (∀ u ∈ L, u ≠ [] ∧ ∀ c ∈ u, c ≠ '-') →
      ∀ c, (List.intercalate ['-'] L).getLast? = some c → c ≠ '-' := by
  intro L
  induction L with
  | nil =>
    intro _ c hc
    rw [intercalate_nil] at hc
    exact absurd hc (by simp)
  | cons s rest ih =>
    intro h c hc
    rcases rest with _ | ⟨t, rest2⟩
    · rw [intercalate_single] at hc
      exact (h s (List.mem_cons_self s [])).2 c (mem_of_getLast?_some s c hc)
    · have ht := h t (List.mem_cons_of_mem s (List.mem_cons_self t rest2))
      rw [intercalate_cons2, List.append_assoc, List.getLast?_append] at hc
      have hne : List.intercalate ['-'] (t :: rest2) ≠ [] :=
        intercalate_ne_nil t rest2 ht.1
      have hlast2 : (['-'] ++ List.intercalate ['-'] (t :: rest2)).getLast? =
          (List.intercalate ['-'] (t :: rest2)).getLast? := by
        rw [List.getLast?_append]
        rcases hx : List.intercalate ['-'] (t :: rest2) with _ | ⟨a, u⟩
        · exact absurd hx hne
        · simp [List.getLast?_cons_cons]
          rcases hg : (a :: u).getLast? with _ | g
          · exact absurd hg (by simp)
          · simp
      rw [hlast2] at hc
      rcases hg : (List.intercalate ['-'] (t :: rest2)).getLast? with _ | g
      · rw [hg] at hc
        exact absurd hg (by
          rcases hx : List.intercalate ['-'] (t :: rest2) with _ | ⟨a, u⟩
          · exact absurd hx hne
          · simp)
      · rw [hg] at hc
        have : g = c := by simpa [Option.or] using hc
        subst this
        exact ih (fun u hu => h u (List.mem_cons_of_mem s hu)) g hg

/-- The output of the slug core is an intercalation of at most four
nonempty pieces of lower-case-stable alphanumeric characters. -/
theorem createSlugCore_shape (l : List Char) :
    ∃ L : List (List Char),
      createSlugCore l = List.intercalate ['-'] L ∧
      L.length ≤ 4 ∧
      ∀ s ∈ L, s ≠ [] ∧
        ∀ c ∈ s, c.isAlphanum = true ∧ c.toLower = c ∧ c ≠ '-' := by
  refine ⟨((splitOnChar '-' (trimHyphens (collapseHyphens
      ((((afterColonSpace? l).getD l).map Char.toLower).map
        (fun c => if c.isAlphanum then c else '-'))))).filter
          (fun s => !s.isEmpty)).take 4, by rw [createSlugCore], ?_, ?_⟩
  · exact List.length_take_le 4 _
  · intro s hs
    have h1 := List.take_subset 4 _ hs
    have h2 := List.mem_filter.mp h1
    refine ⟨by simpa using h2.2, ?_⟩
    intro c hc
    have h3 := mem_of_mem_splitOnChar '-' _ s c h2.1 hc
    have h4 := mem_of_mem_trimHyphens _ c h3.1
    have h5 := mem_of_mem_collapseHyphens _ c h4
    rcases List.mem_map.mp h5 with ⟨a, ha, hac⟩
    by_cases halnum : a.isAlphanum = true
    · rw [if_pos halnum] at hac
      subst hac
      rcases List.mem_map.mp ha with ⟨b, _, hab⟩
      refine ⟨halnum, ?_, h3.2⟩
      rw [← hab]
      exact toLower_idem b
    · rw [if_neg halnum] at hac
      exact absurd hac.symm h3.2

/-- The slug core fixes every well-shaped intercalation. -/
theorem createSlugCore_fixed (L : List (List Char)) (hlen : L.length ≤ 4)
    (hL : ∀ s ∈ L, s ≠ [] ∧
      ∀ c ∈ s, c.isAlphanum = true ∧ c.toLower = c ∧ c ≠ '-') :
    createSlugCore (List.intercalate ['-'] L) = List.intercalate ['-'] L := by
  rcases L with _ | ⟨s0, L'⟩
  · rw [intercalate_nil]
    rfl
  · have hchar : ∀ c ∈ List.intercalate ['-'] (s0 :: L'),
        c = '-' ∨ (c.isAlphanum = true ∧ c.toLower = c ∧ c ≠ '-') := by
      intro c hc
      rcases mem_intercalate_cases _ c hc with h | ⟨s, hsL, hcs⟩
      · exact Or.inl h
      · exact Or.inr ((hL s hsL).2 c hcs)
    have hs0 := hL s0 (List.mem_cons_self s0 L')
    have hnc : afterColonSpace? (List.intercalate ['-'] (s0 :: L')) = none := by
      apply afterColonSpace?_eq_none
      intro c hc
      rcases hchar c hc with h | h
      · rw [h]; decide
      · intro hcol
        rw [hcol] at h
        exact absurd h.1 (by decide)
    have hlow : (List.intercalate ['-'] (s0 :: L')).map Char.toLower =
        List.intercalate ['-'] (s0 :: L') := by
      apply map_id_of_mem
      intro c hc
      rcases hchar c hc with h | h
      · rw [h]; decide
      · exact h.2.1
    have hrep : (List.intercalate ['-'] (s0 :: L')).map
        (fun c => if c.isAlphanum then c else '-') =
        List.intercalate ['-'] (s0 :: L') := by
      apply map_id_of_mem
      intro c hc
      rcases hchar c hc with h | h
      · rw [h]; decide
      · rw [if_pos h.1]
    have hcoll : collapseHyphens (List.intercalate ['-'] (s0 :: L')) =
        List.intercalate ['-'] (s0 :: L') :=
      collapse_intercalate _
        (fun s hsL => ⟨(hL s hsL).1, fun c hc => ((hL s hsL).2 c hc).2.2⟩)
    have htrim : trimHyphens (List.intercalate ['-'] (s0 :: L')) =
        List.intercalate ['-'] (s0 :: L') := by
      apply trimHyphens_eq_self
      · intro c hc
        rw [intercalate_head? s0 L' hs0.1] at hc
        exact (hs0.2 c (mem_of_head?_some s0 c hc)).2.2
      · exact intercalate_getLast?_ne _
          (fun u hu => ⟨(hL u hu).1, fun c hc => ((hL u hu).2 c hc).2.2⟩)
    have hsplit : splitOnChar '-' (List.intercalate ['-'] (s0 :: L')) =
        s0 :: L' :=
      splitOnChar_intercalate _ (by simp)
        (fun u hu c hc => ((hL u hu).2 c hc).2.2)
    have hfilter : (s0 :: L').filter (fun s => !s.isEmpty) = s0 :: L' := by
      rw [List.filter_eq_self]
      intro u hu
      simpa using (hL u hu).1
    have htake : (s0 :: L').take 4 = s0 :: L' :=
      List.take_of_length_le hlen
    simp only [createSlugCore]
    rw [hnc, Option.getD_none, hlow, hrep, hcoll, htrim, hsplit, hfilter,
      htake]

/-- C6: the slug generator is idempotent on its own output — re-slugging
any slug returns it unchanged. -/
theorem create_slug_idempotent :
    ∀ (s : String), create_slug (create_slug s) = create_slug s := by
  intro s
  show String.mk (createSlugCore (createSlugCore s.data)) =
    String.mk (createSlugCore s.data)
  obtain ⟨L, hshape, hlen, hL⟩ := createSlugCore_shape s.data
  rw [hshape, createSlugCore_fixed L hlen hL]

end Checkout
